import Mathlib

/-!
Verification development for the SUMMARY.md index parser
(src/summary/summary.rs, errors.rs, mod.rs).

The embedding follows the Rust source closely:
* the input text is a `List Char`; the Rust `CharIndices` cursor is a
  `List (Nat × Char)` pairing each character with its UTF-8 byte offset;
* the panic reachable through `.expect("Can't be None")` in `parse_link`
  is modelled by the `Except String` error channel;
* the top-level prefaces loop is written with an explicit fuel argument
  (`parse_prefacesF`); the wrapper `parse_prefaces` supplies
  `cursor length + 1` units of fuel, which is proved sufficient below
  (each loop iteration consumes at least one character), so the
  fuel-exhaustion branch is unreachable.
-/

namespace Summary

/-- Diagnostic record, `ParseError` from errors.rs: a description and a byte
offset into the original input. -/
structure ParseError where
  desc : String
  byte : Nat

/-- Link entry, `Link` from mod.rs: display name, destination, and an
optional list of children (never populated by this parser; `Link::new`
always sets it to `None`). -/
inductive Link : Type where
  | mk (name : String) (destination : String) (children : Option (List Link)) : Link

/-- The `name` field of a `Link`. -/
def Link.name : Link → String
  | .mk n _ _ => n

/-- The `destination` field of a `Link`. -/
def Link.destination : Link → String
  | .mk _ d _ => d

/-- The `children` field of a `Link`. -/
def Link.children : Link → Option (List Link)
  | .mk _ _ c => c

/-- The three-section outline, `Chapters` from summary.rs. -/
structure Chapters where
  prefaces : List Link
  chapters : List Link
  appendices : List Link

/-- The observable outcome of `Summary::parse`: the returned
`Option<Chapters>`, the internally built outline (`self.chapters`), and the
accumulated diagnostics (`self.errors`). -/
structure ParseOutcome where
  result : Option Chapters
  chapters : Chapters
  errors : List ParseError

/-- UTF-8 byte length of a character list (the byte length of the Rust
`&str` holding those characters). -/
def byteLen (l : List Char) : Nat := (l.map Char.utf8Size).sum

/-- The `CharIndices` view of the input starting at byte offset `pos`:
each character paired with its byte offset, exactly as Rust
`str::char_indices` produces them. -/
def charIndicesFrom : Nat → List Char → List (Nat × Char)
  | _, [] => []
  | pos, c :: cs => (pos, c) :: charIndicesFrom (pos + c.utf8Size) cs

/-- Message of the `expect` diagnostic when a character was found:
`format!("expected \x60{}\x60, but found \x60{}\x60", ch, c)`. -/
def expectedMsgFound (ch c : Char) : String :=
  "expected \x60" ++ String.mk [ch] ++ "\x60, but found \x60" ++ String.mk [c] ++ "\x60"

/-- Message of the `expect` diagnostic at end of input:
`format!("expected \x60{}\x60, but found eof", ch)`. -/
def expectedMsgEof (ch : Char) : String :=
  "expected \x60" ++ String.mk [ch] ++ "\x60, but found eof"

/-- Message of the top-level diagnostic:
`format!("Unexpected character \x27{}\x27", c)`. -/
def unexpectedMsg (c : Char) : String :=
  "Unexpected character \x27" ++ String.mk [c] ++ "\x27"

/-- `Summary::eat`: consume the next character if it equals `ch`, reporting
whether it did; otherwise leave the cursor unchanged. -/
def eat (ch : Char) : List (Nat × Char) → Bool × List (Nat × Char)
  | [] => (false, [])
  | (i, c) :: rest => if c = ch then (true, rest) else (false, (i, c) :: rest)

/-- `Summary::eat_until_eol`: consume characters up to and including the
next line feed (or to end of input). -/
def eat_until_eol : List (Nat × Char) → List (Nat × Char)
  | [] => []
  | (_, c) :: rest => if c = '\n' then rest else eat_until_eol rest

/-- `Summary::expect`: eat `ch` if present; otherwise record a diagnostic
naming the expected character and what was found (or eof), at the byte
offset of the next character (or the input length `L` at end of input). -/
def expect (L : Nat) (ch : Char) (l : List (Nat × Char)) :
    Bool × Option ParseError × List (Nat × Char) :=
  match eat ch l with
  | (true, l') => (true, none, l')
  | (false, _) =>
    match l with
    | [] => (false, some ⟨expectedMsgEof ch, L⟩, [])
    | (i, c) :: rest => (false, some ⟨expectedMsgFound ch c, i⟩, (i, c) :: rest)

/-- `Summary::parse_header`: if the input starts with `#`, discard the rest
of that line. -/
def parse_header (l : List (Nat × Char)) : List (Nat × Char) :=
  match eat '#' l with
  | (true, l') => eat_until_eol l'
  | (false, l') => l'

/-- The balanced-delimiter scanning loop shared by the title
(`op = '['`, `cl = ']'`) and destination (`op = '('`, `cl = ')'`) halves of
`Summary::parse_link`.  The `newline()` test at the top of each Rust loop
iteration is inlined as the first two branches.  Returns `none` on the
newline-abort path and the accumulated text otherwise (on end of input the
loop exits and the accumulated text is kept, exactly as in the source);
`Except.error` models the Rust panic when a backslash is the final
character. -/
def scanText (op cl : Char) :
    List (Nat × Char) → List Char → Nat →
      Except String (Option (List Char) × List (Nat × Char))
  | [], acc, _ => Except.ok (some acc, [])
  | (_, c) :: rest, acc, bal =>
    if c = '\n' then Except.ok (none, rest)
    else if c = '\r' ∧ rest.head?.map Prod.snd = some '\n' then
      Except.ok (none, rest.tail)
    else if c = op then scanText op cl rest (acc ++ [c]) (bal + 1)
    else if c = cl ∧ bal > 1 then scanText op cl rest (acc ++ [c]) (bal - 1)
    else if c = '\\' then
      match rest with
      | [] => Except.error "Can\x27t be None"
      | (_, c2) :: rest2 => scanText op cl rest2 (acc ++ [c, c2]) bal
    else if c = cl then Except.ok (some acc, rest)
    else scanText op cl rest (acc ++ [c]) bal

/-- `Summary::parse_link`: eat the opening `[`, scan the title, require
`(` (recording a diagnostic if absent), scan the destination, and build
the link.  The returned triple is (link produced, diagnostic recorded by
`expect`, cursor afterwards). -/
def parse_link (L : Nat) (l : List (Nat × Char)) :
    Except String (Option Link × Option ParseError × List (Nat × Char)) :=
  match scanText '[' ']' (eat '[' l).2 [] 1 with
  | Except.error e => Except.error e
  | Except.ok (none, l1) => Except.ok (none, none, l1)
  | Except.ok (some title, l1) =>
    match expect L '(' l1 with
    | (false, oe, l2) => Except.ok (none, oe, l2)
    | (true, oe, l2) =>
      match scanText '(' ')' l2 [] 1 with
      | Except.error e => Except.error e
      | Except.ok (none, l3) => Except.ok (none, oe, l3)
      | Except.ok (some dest, l3) =>
        Except.ok (some (Link.mk (String.mk title) (String.mk dest) none), oe, l3)

/-- Fuel-indexed form of `Summary::parse_prefaces`: skip newlines, parse a
link at `[` (discarding the rest of the line when no entry is produced),
stop at `-`, and otherwise record an unexpected-character diagnostic and
discard the line.  Returns the prefaces and diagnostics accumulated in
parse order together with the remaining cursor; `none` signals fuel
exhaustion, which never happens when the fuel exceeds the cursor length
(proved below). -/
def parse_prefacesF : Nat → Nat → List (Nat × Char) →
    Option (Except String (List Link × List ParseError × List (Nat × Char)))
  | 0, _, _ => none
  | _ + 1, _, [] => some (Except.ok ([], [], []))
  | fuel + 1, L, (i, c) :: rest =>
    if c = '\n' then parse_prefacesF fuel L rest
    else if c = '\r' ∧ rest.head?.map Prod.snd = some '\n' then
      parse_prefacesF fuel L rest.tail
    else if c = '[' then
      match parse_link L ((i, c) :: rest) with
      | Except.error e => some (Except.error e)
      | Except.ok (some p, oe, s') =>
        match parse_prefacesF fuel L s' with
        | none => none
        | some (Except.error e) => some (Except.error e)
        | some (Except.ok (ps, es, l')) =>
          some (Except.ok (p :: ps, oe.toList ++ es, l'))
      | Except.ok (none, oe, s') =>
        match parse_prefacesF fuel L (eat_until_eol s') with
        | none => none
        | some (Except.error e) => some (Except.error e)
        | some (Except.ok (ps, es, l')) =>
          some (Except.ok (ps, oe.toList ++ es, l'))
    else if c = '-' then some (Except.ok ([], [], (i, c) :: rest))
    else
      match parse_prefacesF fuel L (eat_until_eol ((i, c) :: rest)) with
      | none => none
      | some (Except.error e) => some (Except.error e)
      | some (Except.ok (ps, es, l')) =>
        some (Except.ok (ps, ParseError.mk (unexpectedMsg c) i :: es, l'))

/-- `Summary::parse_prefaces`, with the fuel instantiated to one more than
the cursor length.  The `none` branch is unreachable (the fuel-sufficiency
theorem below); its value is immaterial. -/
def parse_prefaces (L : Nat) (l : List (Nat × Char)) :
    Except String (List Link × List ParseError × List (Nat × Char)) :=
  match parse_prefacesF (l.length + 1) L l with
  | some r => r
  | none => Except.ok ([], [], l)

/-- `Summary::parse`: run the header skip and the prefaces loop over a
fresh session for `input`, and return `Some(chapters)` exactly when no
diagnostic was recorded. -/
def parse (input : List Char) : Except String ParseOutcome :=
  match parse_prefaces (byteLen input) (parse_header (charIndicesFrom 0 input)) with
  | Except.error e => Except.error e
  | Except.ok (ps, errs, _) =>
    if errs.isEmpty then
      Except.ok ⟨some ⟨ps, [], []⟩, ⟨ps, [], []⟩, errs⟩
    else
      Except.ok ⟨none, ⟨ps, [], []⟩, errs⟩

/-- Strip one trailing carriage return, as Rust `str::lines` does to each
line that ended in a line feed. -/
def stripCr (l : List Char) : List Char :=
  if l.getLast? = some '\r' then l.dropLast else l

/-- Worker for `linesList`: split the input at line feeds, stripping a
trailing carriage return from every piece that was terminated by a line
feed and omitting a final empty piece (Rust `str::lines`). -/
def linesGo (curLine : List Char) : List Char → List (List Char)
  | [] => if curLine = [] then [] else [curLine]
  | c :: cs =>
    if c = '\n' then stripCr curLine :: linesGo [] cs
    else linesGo (curLine ++ [c]) cs

/-- The lines of the input, as enumerated by `self.input.lines()`. -/
def linesList (input : List Char) : List (List Char) :=
  linesGo [] input

/-- The loop of `Summary::to_linecol`: walk the lines accumulating
`byte length + 1` per line until the accumulated count would exceed the
offset; past the last line, fall back to `(total line count, 0)`. -/
def linecolGo (total offset : Nat) : Nat → Nat → List (List Char) → Nat × Nat
  | _, _, [] => (total, 0)
  | i, cur, line :: rest =>
    if cur + byteLen line + 1 > offset then (i, offset - cur)
    else linecolGo total offset (i + 1) (cur + byteLen line + 1) rest

/-- `Summary::to_linecol`: convert a byte offset into a zero-based
(line, column) pair. -/
def to_linecol (input : List Char) (offset : Nat) : Nat × Nat :=
  linecolGo (linesList input).length offset 0 0 (linesList input)

/-- Cumulative byte position after the first `k` lines, counting one byte
for each line terminator: the "line boundary" preceding line `k`. -/
def lineBoundary (input : List Char) (k : Nat) : Nat :=
  (((linesList input).take k).map (fun l => byteLen l + 1)).sum

end Summary

namespace Summary

/-- The cursor left by `eat` is a suffix of the cursor it was given. -/
theorem eat_suffix (ch : Char) (l : List (Nat × Char)) : (eat ch l).2 <:+ l := by
  match l with
  | [] => exact List.suffix_rfl
  | (i, c) :: rest =>
    simp only [eat]
    split
    · exact List.suffix_cons _ _
    · exact List.suffix_rfl

/-- The cursor left by `eat_until_eol` is a suffix of the cursor it was
given. -/
theorem eat_until_eol_suffix : ∀ l : List (Nat × Char), eat_until_eol l <:+ l := by
  intro l
  induction l with
  | nil => exact List.suffix_rfl
  | cons p rest ih =>
    obtain ⟨i, c⟩ := p
    simp only [eat_until_eol]
    split
    · exact List.suffix_cons _ _
    · exact ih.trans (List.suffix_cons _ _)

/-- The cursor left by a completed delimiter scan is a suffix of the cursor
it started from, proved by strong induction on the cursor length. -/
theorem scanText_suffix_aux (op cl : Char) :
    ∀ (n : Nat) (l : List (Nat × Char)) (acc : List Char) (bal : Nat)
      (r : Option (List Char)) (l' : List (Nat × Char)),
      l.length ≤ n → scanText op cl l acc bal = Except.ok (r, l') → l' <:+ l := by
  intro n
  induction n with
  | zero =>
    intro l acc bal r l' hl h
    match l with
    | [] =>
      simp only [scanText, Except.ok.injEq, Prod.mk.injEq] at h
      obtain ⟨-, hx⟩ := h
      subst hx
      exact List.suffix_rfl
    | p :: rest => simp at hl
  | succ n ih =>
    intro l acc bal r l' hl h
    match l with
    | [] =>
      simp only [scanText, Except.ok.injEq, Prod.mk.injEq] at h
      obtain ⟨-, hx⟩ := h
      subst hx
      exact List.suffix_rfl
    | [(i, c)] =>
      simp only [scanText] at h
      split_ifs at h with hc1 hc2 hc3 hc4 hc5 hc6 <;>
        first
        | (simp only [Except.ok.injEq, Prod.mk.injEq] at h
           obtain ⟨-, hx⟩ := h
           subst hx
           first
           | exact List.suffix_cons _ _
           | exact List.suffix_rfl
           | exact (List.tail_suffix _).trans (List.suffix_cons _ _)
           | exact List.nil_suffix _)
        | exact ((ih _ _ _ _ _ (by simp) h).trans (List.suffix_cons _ _))
        | simp at h
    | (i, c) :: (j, c2) :: rest2 =>
      simp only [List.length_cons] at hl
      simp only [scanText] at h
      split_ifs at h with hc1 hc2 hc3 hc4 hc5 hc6 <;>
        first
        | (simp only [Except.ok.injEq, Prod.mk.injEq] at h
           obtain ⟨-, hx⟩ := h
           subst hx
           first
           | exact List.suffix_cons _ _
           | exact List.suffix_rfl
           | exact (List.tail_suffix _).trans (List.suffix_cons _ _)
           | exact List.nil_suffix _)
        | exact ((ih _ _ _ _ _ (by simp only [List.length_cons]; omega) h).trans
            (List.suffix_cons _ _))
        | exact (((ih _ _ _ _ _ (by omega) h).trans (List.suffix_cons _ _)).trans
            (List.suffix_cons _ _))
        | simp at h

/-- Wrapper for the suffix property of the delimiter scan. -/
theorem scanText_suffix (op cl : Char) (l : List (Nat × Char)) (acc : List Char) (bal : Nat)
    (r : Option (List Char)) (l' : List (Nat × Char))
    (h : scanText op cl l acc bal = Except.ok (r, l')) : l' <:+ l :=
  scanText_suffix_aux op cl l.length l acc bal r l' (Nat.le_refl _) h

/-- The cursor left by `expect` is a suffix of the cursor it was given. -/
theorem expect_suffix (L : Nat) (ch : Char) (l : List (Nat × Char)) :
    ∀ b oe l', expect L ch l = (b, oe, l') → l' <:+ l := by
  intro b oe l' h
  match l with
  | [] =>
    simp only [expect, eat, Prod.mk.injEq] at h
    obtain ⟨-, -, hx⟩ := h
    subst hx
    exact List.suffix_rfl
  | (i, c) :: rest =>
    by_cases hc : c = ch
    · simp only [expect, eat, hc, if_pos, Prod.mk.injEq] at h
      obtain ⟨-, -, hx⟩ := h
      subst hx
      exact List.suffix_cons _ _
    · simp only [expect, eat, if_neg hc, Prod.mk.injEq] at h
      obtain ⟨-, -, hx⟩ := h
      subst hx
      exact List.suffix_rfl

/-- Any diagnostic produced by `expect` carries either the byte offset of
the head of the cursor it was given or the supplied input length. -/
theorem expect_byte (L : Nat) (ch : Char) (l : List (Nat × Char)) :
    ∀ b e l', expect L ch l = (b, some e, l') →
      e.byte = L ∨ ∃ c rest, l = (e.byte, c) :: rest := by
  intro b e l' h
  match l with
  | [] =>
    simp only [expect, eat, Prod.mk.injEq, Option.some.injEq] at h
    obtain ⟨-, he, -⟩ := h
    left
    rw [← he]
  | (i, c) :: rest =>
    by_cases hc : c = ch
    · simp only [expect, eat, hc, if_pos, Prod.mk.injEq] at h
      exact absurd h.2.1 (by simp)
    · simp only [expect, eat, if_neg hc, Prod.mk.injEq, Option.some.injEq] at h
      obtain ⟨-, he, -⟩ := h
      right
      exact ⟨c, rest, by rw [← he]⟩

/-- The cursor left by a completed `parse_link` is a suffix of the cursor
obtained after eating the opening bracket. -/
theorem parse_link_suffix_eat (L : Nat) (l : List (Nat × Char)) :
    ∀ r oe l', parse_link L l = Except.ok (r, oe, l') → l' <:+ (eat '[' l).2 := by
  intro r oe l' h
  rw [parse_link] at h
  cases hscan : scanText '[' ']' (eat '[' l).2 [] 1 with
  | error e =>
    simp only [hscan] at h
    exact Except.noConfusion h
  | ok v =>
    obtain ⟨t, l1⟩ := v
    have h1 : l1 <:+ (eat '[' l).2 := scanText_suffix _ _ _ _ _ _ _ hscan
    simp only [hscan] at h
    cases t with
    | none =>
      simp only [Except.ok.injEq, Prod.mk.injEq] at h
      obtain ⟨-, -, hx⟩ := h
      subst hx
      exact h1
    | some title =>
      obtain ⟨⟨b, oe2, l2⟩, hexp⟩ :
          ∃ v : Bool × Option ParseError × List (Nat × Char), expect L '(' l1 = v :=
        ⟨_, rfl⟩
      have h2 : l2 <:+ l1 := expect_suffix L '(' l1 b oe2 l2 hexp
      simp only [hexp] at h
      cases b with
      | false =>
        simp only [Except.ok.injEq, Prod.mk.injEq] at h
        obtain ⟨-, -, hx⟩ := h
        subst hx
        exact h2.trans h1
      | true =>
        cases hscan2 : scanText '(' ')' l2 [] 1 with
        | error e =>
          simp only [hscan2] at h
          exact Except.noConfusion h
        | ok w =>
          obtain ⟨d, l3⟩ := w
          have h3 : l3 <:+ l2 := scanText_suffix _ _ _ _ _ _ _ hscan2
          simp only [hscan2] at h
          cases d with
          | none =>
            simp only [Except.ok.injEq, Prod.mk.injEq] at h
            obtain ⟨-, -, hx⟩ := h
            subst hx
            exact (h3.trans h2).trans h1
          | some dest =>
            simp only [Except.ok.injEq, Prod.mk.injEq] at h
            obtain ⟨-, -, hx⟩ := h
            subst hx
            exact (h3.trans h2).trans h1

/-- The cursor left by a completed `parse_link` is a suffix of the cursor
it was given: the link scanner never rewinds past where it started. -/
theorem parse_link_suffix (L : Nat) (l : List (Nat × Char)) :
    ∀ r oe l', parse_link L l = Except.ok (r, oe, l') → l' <:+ l :=
  fun r oe l' h => (parse_link_suffix_eat L l r oe l' h).trans (eat_suffix '[' l)

/-- When the cursor starts at a `[`, a completed `parse_link` consumes at
least that character: the remaining cursor is strictly shorter. -/
theorem parse_link_cons_length (L i : Nat) (rest : List (Nat × Char)) :
    ∀ r oe l', parse_link L ((i, '[') :: rest) = Except.ok (r, oe, l') →
      l'.length < ((i, '[') :: rest).length := by
  intro r oe l' h
  have hs := parse_link_suffix_eat L ((i, '[') :: rest) r oe l' h
  have he : (eat '[' ((i, '[') :: rest)).2 = rest := by simp [eat]
  rw [he] at hs
  have := hs.length_le
  simp only [List.length_cons]
  omega

/-- Discarding a line from a nonempty cursor leaves at most the tail's
length. -/
theorem eat_until_eol_cons_le (i : Nat) (c : Char) (rest : List (Nat × Char)) :
    (eat_until_eol ((i, c) :: rest)).length ≤ rest.length := by
  simp only [eat_until_eol]
  split
  · exact Nat.le_refl _
  · exact (eat_until_eol_suffix rest).length_le

/-- The cursor left by `parse_header` is a suffix of the cursor it was
given. -/
theorem parse_header_suffix (l : List (Nat × Char)) : parse_header l <:+ l := by
  rw [parse_header]
  obtain ⟨⟨b, l2⟩, he⟩ : ∃ v, eat '#' l = v := ⟨_, rfl⟩
  have h2 : l2 <:+ l := by
    have h := eat_suffix '#' l
    rw [he] at h
    exact h
  rw [he]
  cases b with
  | true => exact (eat_until_eol_suffix l2).trans h2
  | false => exact h2

/-- Every byte offset produced by `charIndicesFrom pos cs` is at most
`pos` plus the byte length of `cs`. -/
theorem charIndicesFrom_byte_le :
    ∀ (cs : List Char) (pos : Nat) (p : Nat × Char), p ∈ charIndicesFrom pos cs →
      p.1 ≤ pos + byteLen cs := by
  intro cs
  induction cs with
  | nil => intro pos p hp; simp [charIndicesFrom] at hp
  | cons c cs ih =>
    intro pos p hp
    simp only [charIndicesFrom, List.mem_cons] at hp
    cases hp with
    | inl h =>
      subst h
      simp only [byteLen, List.map_cons, List.sum_cons]
      omega
    | inr h =>
      have hm := ih (pos + c.utf8Size) p h
      simp only [byteLen, List.map_cons, List.sum_cons] at hm ⊢
      omega

/-- With fuel exceeding the cursor length, the prefaces loop never runs out
of fuel: every iteration consumes at least one character of the cursor. -/
theorem parse_prefacesF_ne_none :
    ∀ (fuel L : Nat) (l : List (Nat × Char)), l.length < fuel →
      parse_prefacesF fuel L l ≠ none := by
  intro fuel L l
  induction fuel, L, l using parse_prefacesF.induct with
  | case1 L l =>
    intro h
    exact absurd h (by omega)
  | case2 fuel L =>
    intro _
    simp [parse_prefacesF]
  | case3 fuel L i rest ih =>
    intro h
    simp only [List.length_cons] at h
    simp only [parse_prefacesF]
    exact ih (by omega)
  | case4 fuel L i c rest h1 h2 ih =>
    intro h
    simp only [List.length_cons] at h
    have ht : rest.tail.length = rest.length - 1 := List.length_tail rest
    simp only [parse_prefacesF, h1, h2]
    simp
    exact ih (by omega)
  | case5 fuel L i rest e h1 h2 hpl =>
    intro _
    simp [parse_prefacesF, hpl]
  | case6 fuel L i rest p oe s' hrec h1 h2 hpl ih =>
    intro h
    simp only [List.length_cons] at h
    have hlt := parse_link_cons_length L i rest _ _ _ hpl
    simp only [List.length_cons] at hlt
    exact absurd hrec (ih (by omega))
  | case7 fuel L i rest p oe s' e hrec h1 h2 hpl =>
    intro _
    simp [parse_prefacesF, hpl, hrec]
  | case8 fuel L i rest p oe s' ps es l' hrec h1 h2 hpl =>
    intro _
    simp [parse_prefacesF, hpl, hrec]
  | case9 fuel L i rest oe s' hrec h1 h2 hpl ih =>
    intro h
    simp only [List.length_cons] at h
    have hlt := parse_link_cons_length L i rest _ _ _ hpl
    simp only [List.length_cons] at hlt
    have he : (eat_until_eol s').length ≤ s'.length := (eat_until_eol_suffix s').length_le
    exact absurd hrec (ih (by omega))
  | case10 fuel L i rest oe s' e hrec h1 h2 hpl =>
    intro _
    simp [parse_prefacesF, hpl, hrec]
  | case11 fuel L i rest oe s' ps es l' hrec h1 h2 hpl =>
    intro _
    simp [parse_prefacesF, hpl, hrec]
  | case12 fuel L i rest h1 h2 h3 =>
    intro _
    simp [parse_prefacesF]
  | case13 fuel L i c rest h1 h2 h3 h4 hrec ih =>
    intro h
    simp only [List.length_cons] at h
    have he := eat_until_eol_cons_le i c rest
    exact absurd hrec (ih (by omega))
  | case14 fuel L i c rest h1 h2 h3 h4 e hrec =>
    intro _
    simp only [parse_prefacesF]
    rw [if_neg h1, if_neg h2, if_neg h3, if_neg h4, hrec]
    simp
  | case15 fuel L i c rest h1 h2 h3 h4 ps es l' hrec =>
    intro _
    simp only [parse_prefacesF]
    rw [if_neg h1, if_neg h2, if_neg h3, if_neg h4, hrec]
    simp

/-- Any diagnostic recorded by `parse_link` (necessarily by its `expect`
call) has a byte offset bounded by `L` whenever every cursor offset is. -/
theorem parse_link_err_le (L : Nat) (l : List (Nat × Char)) (hL : ∀ p ∈ l, p.1 ≤ L) :
    ∀ r e l', parse_link L l = Except.ok (r, some e, l') → e.byte ≤ L := by
  intro r e l' h
  rw [parse_link] at h
  cases hscan : scanText '[' ']' (eat '[' l).2 [] 1 with
  | error e2 =>
    simp only [hscan] at h
    exact Except.noConfusion h
  | ok v =>
    obtain ⟨t, l1⟩ := v
    have h1 : l1 <:+ l := (scanText_suffix _ _ _ _ _ _ _ hscan).trans (eat_suffix '[' l)
    simp only [hscan] at h
    cases t with
    | none =>
      simp only [Except.ok.injEq, Prod.mk.injEq] at h
      exact absurd h.2.1 (by simp)
    | some title =>
      obtain ⟨⟨b, oe2, l2⟩, hexp⟩ : ∃ v : Bool × Option ParseError × List (Nat × Char),
          expect L '(' l1 = v := ⟨_, rfl⟩
      simp only [hexp] at h
      have key : oe2 = some e → e.byte ≤ L := by
        intro hoe
        rw [hoe] at hexp
        cases expect_byte L '(' l1 b e l2 hexp with
        | inl hb => exact Nat.le_of_eq hb
        | inr hb =>
          obtain ⟨c, rest2, hl1⟩ := hb
          have hmem : (e.byte, c) ∈ l1 := by rw [hl1]; exact List.mem_cons_self _ _
          exact hL (e.byte, c) (h1.subset hmem)
      cases b with
      | false =>
        simp only [Except.ok.injEq, Prod.mk.injEq] at h
        exact key h.2.1
      | true =>
        cases hscan2 : scanText '(' ')' l2 [] 1 with
        | error e2 =>
          simp only [hscan2] at h
          exact Except.noConfusion h
        | ok w =>
          obtain ⟨d, l3⟩ := w
          simp only [hscan2] at h
          cases d with
          | none =>
            simp only [Except.ok.injEq, Prod.mk.injEq] at h
            exact key h.2.1
          | some dest =>
            simp only [Except.ok.injEq, Prod.mk.injEq] at h
            exact key h.2.1

/-- The cursor left by a completed prefaces loop is a suffix of the cursor
it started from: the top-level loop never moves backward. -/
theorem parse_prefacesF_suffix :
    ∀ (fuel L : Nat) (l : List (Nat × Char)) (ps : List Link) (es : List ParseError)
      (l' : List (Nat × Char)),
      parse_prefacesF fuel L l = some (Except.ok (ps, es, l')) → l' <:+ l := by
  intro fuel L l
  induction fuel, L, l using parse_prefacesF.induct with
  | case1 L l =>
    intro ps es l' h
    simp [parse_prefacesF] at h
  | case2 fuel L =>
    intro ps es l' h
    simp only [parse_prefacesF, Option.some.injEq, Except.ok.injEq, Prod.mk.injEq] at h
    obtain ⟨-, -, hx⟩ := h
    subst hx
    exact List.suffix_rfl
  | case3 fuel L i rest ih =>
    intro ps es l' h
    simp only [parse_prefacesF, if_pos] at h
    exact (ih ps es l' (by simpa using h)).trans (List.suffix_cons _ _)
  | case4 fuel L i c rest h1 h2 ih =>
    intro ps es l' h
    simp only [parse_prefacesF] at h
    rw [if_neg h1, if_pos h2] at h
    exact ((ih ps es l' h).trans (List.tail_suffix rest)).trans (List.suffix_cons _ _)
  | case5 fuel L i rest e h1 h2 hpl =>
    intro ps es l' h
    simp [parse_prefacesF, hpl] at h
  | case6 fuel L i rest p oe s' hrec h1 h2 hpl ih =>
    intro ps es l' h
    simp [parse_prefacesF, hpl, hrec] at h
  | case7 fuel L i rest p oe s' e hrec h1 h2 hpl =>
    intro ps es l' h
    simp [parse_prefacesF, hpl, hrec] at h
  | case8 fuel L i rest p oe s' ps0 es0 l0 hrec h1 h2 hpl ih =>
    intro ps es l' h
    have hs : s' <:+ (i, '[') :: rest := parse_link_suffix L _ _ _ _ hpl
    simp [parse_prefacesF, hpl, hrec] at h
    obtain ⟨-, -, hx⟩ := h
    subst hx
    exact (ih ps0 es0 l0 hrec).trans hs
  | case9 fuel L i rest oe s' hrec h1 h2 hpl ih =>
    intro ps es l' h
    simp [parse_prefacesF, hpl, hrec] at h
  | case10 fuel L i rest oe s' e hrec h1 h2 hpl =>
    intro ps es l' h
    simp [parse_prefacesF, hpl, hrec] at h
  | case11 fuel L i rest oe s' ps0 es0 l0 hrec h1 h2 hpl ih =>
    intro ps es l' h
    have hs : s' <:+ (i, '[') :: rest := parse_link_suffix L _ _ _ _ hpl
    simp [parse_prefacesF, hpl, hrec] at h
    obtain ⟨-, -, hx⟩ := h
    subst hx
    exact (((ih ps0 es0 l0 hrec).trans (eat_until_eol_suffix s')).trans hs)
  | case12 fuel L i rest h1 h2 h3 =>
    intro ps es l' h
    simp [parse_prefacesF] at h
    obtain ⟨-, -, hx⟩ := h
    subst hx
    exact List.suffix_rfl
  | case13 fuel L i c rest h1 h2 h3 h4 hrec ih =>
    intro ps es l' h
    simp only [parse_prefacesF] at h
    rw [if_neg h1, if_neg h2, if_neg h3, if_neg h4, hrec] at h
    simp at h
  | case14 fuel L i c rest h1 h2 h3 h4 e hrec =>
    intro ps es l' h
    simp only [parse_prefacesF] at h
    rw [if_neg h1, if_neg h2, if_neg h3, if_neg h4, hrec] at h
    simp at h
  | case15 fuel L i c rest h1 h2 h3 h4 ps0 es0 l0 hrec ih =>
    intro ps es l' h
    simp only [parse_prefacesF] at h
    rw [if_neg h1, if_neg h2, if_neg h3, if_neg h4, hrec] at h
    simp only [Option.some.injEq, Except.ok.injEq, Prod.mk.injEq] at h
    obtain ⟨-, -, hx⟩ := h
    subst hx
    exact (ih ps0 es0 l0 hrec).trans (eat_until_eol_suffix _)

/-- Every diagnostic accumulated by the prefaces loop has a byte offset
bounded by `L`, provided every byte offset in the cursor is. -/
theorem parse_prefacesF_err_le :
    ∀ (fuel L : Nat) (l : List (Nat × Char)), (∀ p ∈ l, p.1 ≤ L) →
      ∀ ps es l', parse_prefacesF fuel L l = some (Except.ok (ps, es, l')) →
        ∀ e ∈ es, e.byte ≤ L := by
  intro fuel L l
  induction fuel, L, l using parse_prefacesF.induct with
  | case1 L l =>
    intro hL ps es l' h
    simp [parse_prefacesF] at h
  | case2 fuel L =>
    intro hL ps es l' h
    simp [parse_prefacesF] at h
    obtain ⟨-, hx, -⟩ := h
    subst hx
    intro e he
    simp at he
  | case3 fuel L i rest ih =>
    intro hL ps es l' h
    simp only [parse_prefacesF, if_pos] at h
    exact ih (fun p hp => hL p (List.mem_cons_of_mem _ hp)) ps es l' (by simpa using h)
  | case4 fuel L i c rest h1 h2 ih =>
    intro hL ps es l' h
    simp only [parse_prefacesF] at h
    rw [if_neg h1, if_pos h2] at h
    exact ih
      (fun p hp => hL p (List.mem_cons_of_mem _ ((List.tail_suffix rest).subset hp)))
      ps es l' h
  | case5 fuel L i rest e h1 h2 hpl =>
    intro hL ps es l' h
    simp [parse_prefacesF, hpl] at h
  | case6 fuel L i rest p oe s' hrec h1 h2 hpl ih =>
    intro hL ps es l' h
    simp [parse_prefacesF, hpl, hrec] at h
  | case7 fuel L i rest p oe s' e hrec h1 h2 hpl =>
    intro hL ps es l' h
    simp [parse_prefacesF, hpl, hrec] at h
  | case8 fuel L i rest p oe s' ps0 es0 l0 hrec h1 h2 hpl ih =>
    intro hL ps es l' h
    have hs : s' <:+ (i, '[') :: rest := parse_link_suffix L _ _ _ _ hpl
    simp [parse_prefacesF, hpl, hrec] at h
    obtain ⟨-, hes, -⟩ := h
    subst hes
    intro e he
    rcases List.mem_append.mp he with hoe | h0
    · have hoe2 : oe = some e := by
        cases oe with
        | none => simp at hoe
        | some a => simp at hoe; rw [hoe]
      rw [hoe2] at hpl
      exact parse_link_err_le L _ hL _ e _ hpl
    · exact ih (fun p hp => hL p (hs.subset hp)) ps0 es0 l0 hrec e h0
  | case9 fuel L i rest oe s' hrec h1 h2 hpl ih =>
    intro hL ps es l' h
    simp [parse_prefacesF, hpl, hrec] at h
  | case10 fuel L i rest oe s' e hrec h1 h2 hpl =>
    intro hL ps es l' h
    simp [parse_prefacesF, hpl, hrec] at h
  | case11 fuel L i rest oe s' ps0 es0 l0 hrec h1 h2 hpl ih =>
    intro hL ps es l' h
    have hs : s' <:+ (i, '[') :: rest := parse_link_suffix L _ _ _ _ hpl
    simp [parse_prefacesF, hpl, hrec] at h
    obtain ⟨-, hes, -⟩ := h
    subst hes
    intro e he
    rcases List.mem_append.mp he with hoe | h0
    · have hoe2 : oe = some e := by
        cases oe with
        | none => simp at hoe
        | some a => simp at hoe; rw [hoe]
      rw [hoe2] at hpl
      exact parse_link_err_le L _ hL _ e _ hpl
    · exact ih
        (fun p hp => hL p (hs.subset ((eat_until_eol_suffix s').subset hp)))
        ps0 es0 l0 hrec e h0
  | case12 fuel L i rest h1 h2 h3 =>
    intro hL ps es l' h
    simp [parse_prefacesF] at h
    obtain ⟨-, hx, -⟩ := h
    subst hx
    intro e he
    simp at he
  | case13 fuel L i c rest h1 h2 h3 h4 hrec ih =>
    intro hL ps es l' h
    simp only [parse_prefacesF] at h
    rw [if_neg h1, if_neg h2, if_neg h3, if_neg h4, hrec] at h
    simp at h
  | case14 fuel L i c rest h1 h2 h3 h4 e hrec =>
    intro hL ps es l' h
    simp only [parse_prefacesF] at h
    rw [if_neg h1, if_neg h2, if_neg h3, if_neg h4, hrec] at h
    simp at h
  | case15 fuel L i c rest h1 h2 h3 h4 ps0 es0 l0 hrec ih =>
    intro hL ps es l' h
    simp only [parse_prefacesF] at h
    rw [if_neg h1, if_neg h2, if_neg h3, if_neg h4, hrec] at h
    simp only [Option.some.injEq, Except.ok.injEq, Prod.mk.injEq] at h
    obtain ⟨-, hes, -⟩ := h
    subst hes
    intro e he
    rcases List.mem_cons.mp he with hfst | h0
    · subst hfst
      exact hL (i, c) (List.mem_cons_self _ _)
    · exact ih
        (fun p hp => hL p ((eat_until_eol_suffix ((i, c) :: rest)).subset hp))
        ps0 es0 l0 hrec e h0

/-- Diagnostics carried through the `parse_prefaces` wrapper keep their
byte offsets bounded by `L` whenever every cursor offset is. -/
theorem parse_prefaces_err_le (L : Nat) (l : List (Nat × Char)) (hL : ∀ p ∈ l, p.1 ≤ L) :
    ∀ ps es l', parse_prefaces L l = Except.ok (ps, es, l') → ∀ e ∈ es, e.byte ≤ L := by
  intro ps es l' h
  rw [parse_prefaces] at h
  cases hF : parse_prefacesF (l.length + 1) L l with
  | none =>
    rw [hF] at h
    simp only [Except.ok.injEq, Prod.mk.injEq] at h
    obtain ⟨-, hx, -⟩ := h
    subst hx
    intro e he
    simp at he
  | some r =>
    rw [hF] at h
    cases r with
    | error e2 => exact absurd h (by simp)
    | ok v =>
      obtain ⟨ps0, es0, l0⟩ := v
      simp only [Except.ok.injEq, Prod.mk.injEq] at h
      obtain ⟨-, hx, -⟩ := h
      subst hx
      exact parse_prefacesF_err_le (l.length + 1) L l hL ps0 es0 l0 hF

/-- An offset sitting exactly `k` line boundaries in, with at least one
line remaining, is mapped to the start of line `i + k`. -/
theorem linecolGo_boundary_lt :
    ∀ (k : Nat) (ls : List (List Char)) (total i cur : Nat), k < ls.length →
      linecolGo total (cur + ((ls.take k).map (fun l => byteLen l + 1)).sum) i cur ls
        = (i + k, 0) := by
  intro k
  induction k with
  | zero =>
    intro ls total i cur hk
    match ls with
    | [] => simp at hk
    | line :: rest =>
      simp only [List.take_zero, List.map_nil, List.sum_nil, Nat.add_zero]
      simp only [linecolGo]
      rw [if_pos (by omega)]
      simp
  | succ k ih =>
    intro ls total i cur hk
    match ls with
    | [] => simp at hk
    | line :: rest =>
      simp only [List.take_succ_cons, List.map_cons, List.sum_cons]
      simp only [linecolGo]
      rw [if_neg (by omega)]
      have hrec := ih rest total (i + 1) (cur + byteLen line + 1)
        (by simp only [List.length_cons] at hk; omega)
      have harith : cur + (byteLen line + 1 + ((rest.take k).map (fun l => byteLen l + 1)).sum)
          = cur + byteLen line + 1 + ((rest.take k).map (fun l => byteLen l + 1)).sum := by
        omega
      rw [harith, hrec]
      congr 1
      omega

/-- An offset at or past the cumulative length of all lines maps to
`(total, 0)`. -/
theorem linecolGo_past :
    ∀ (ls : List (List Char)) (total offset i cur : Nat),
      cur + ((ls.map (fun l => byteLen l + 1)).sum) ≤ offset →
      linecolGo total offset i cur ls = (total, 0) := by
  intro ls
  induction ls with
  | nil =>
    intro total offset i cur h
    simp [linecolGo]
  | cons line rest ih =>
    intro total offset i cur h
    simp only [List.map_cons, List.sum_cons] at h
    simp only [linecolGo]
    rw [if_neg (by omega)]
    exact ih total offset (i + 1) (cur + byteLen line + 1) (by omega)

/-- Claim C1 counterexample: parsing "[A](b" (unterminated destination, then
end of input) yields ONE preface entry, not zero — the destination loop
exits at end of input and the link is still constructed. -/
theorem C1_counterexample :
    (parse ("[A](b".toList)).toOption.map (fun out => out.chapters.prefaces) ≠ some [] := by
  intro h
  rw [show (parse ("[A](b".toList)).toOption.map (fun out => out.chapters.prefaces)
      = some [Link.mk "A" "b" none] from rfl] at h
  simp at h

/-- Claim C1 (amended): parsing "[A](b" yields exactly one preface Entry
(title "A", destination "b") and zero diagnostics; in general the
destination loop completes at end of input with the accumulated text, so a
link whose destination is never closed still produces an Entry and, apart
from the newline-abort path, no diagnostic. -/
theorem C1_unterminated_dest_entry :
    parse ("[A](b".toList)
      = Except.ok ⟨some ⟨[Link.mk "A" "b" none], [], []⟩,
          ⟨[Link.mk "A" "b" none], [], []⟩, []⟩ ∧
    ∀ (acc : List Char) (bal : Nat),
      scanText '(' ')' [] acc bal = Except.ok (some acc, []) :=
  ⟨by rfl, fun acc bal => by rfl⟩

/-- Claim C2 (the code violates it): on the input "[\" — an opening bracket
followed by a single final backslash — the title loop consumes the
backslash and then unwraps the next character with
`.expect("Can't be None")`, which panics, so the pass does NOT terminate
normally with an Outline and diagnostics; the modelled panic is the
`Except.error` outcome. -/
theorem C2_backslash_panic :
    parse ("[\\".toList) = Except.error "Can\x27t be None" := by rfl

/-- Claim C3: the pass returns `some` outline exactly when the diagnostic
list is empty; with any diagnostic recorded it returns `none` even though
the outline was constructed internally. -/
theorem C3_some_iff_no_errors (input : List Char) (out : ParseOutcome)
    (h : parse input = Except.ok out) :
    (out.result.isSome ↔ out.errors = []) ∧
    (out.errors = [] → out.result = some out.chapters) ∧
    (out.errors ≠ [] → out.result = none) := by
  rw [parse] at h
  cases hpp : parse_prefaces (byteLen input) (parse_header (charIndicesFrom 0 input)) with
  | error e =>
    rw [hpp] at h
    exact Except.noConfusion h
  | ok v =>
    obtain ⟨ps, errs, lrest⟩ := v
    rw [hpp] at h
    cases errs with
    | nil =>
      simp only [List.isEmpty_nil, if_pos, Except.ok.injEq] at h
      subst h
      simp
    | cons e0 es0 =>
      simp at h
      subst h
      simp

/-- Witness for C3 at the empty input. -/
theorem C3_witness :
    parse ([] : List Char) = Except.ok ⟨some ⟨[], [], []⟩, ⟨[], [], []⟩, []⟩ ∧
    ((⟨some ⟨[], [], []⟩, ⟨[], [], []⟩, []⟩ : ParseOutcome).result.isSome ↔
      (⟨some ⟨[], [], []⟩, ⟨[], [], []⟩, []⟩ : ParseOutcome).errors = []) :=
  ⟨by rfl, (C3_some_iff_no_errors [] _ (by rfl)).1⟩

/-- Claim C4: every diagnostic recorded during a completed pass has a byte
offset of at most the input's byte length. -/
theorem C4_offsets_le (input : List Char) (out : ParseOutcome)
    (h : parse input = Except.ok out) :
    ∀ e ∈ out.errors, e.byte ≤ byteLen input := by
  rw [parse] at h
  cases hpp : parse_prefaces (byteLen input) (parse_header (charIndicesFrom 0 input)) with
  | error e =>
    rw [hpp] at h
    exact Except.noConfusion h
  | ok v =>
    obtain ⟨ps, errs, lrest⟩ := v
    rw [hpp] at h
    have hb : ∀ e ∈ errs, e.byte ≤ byteLen input :=
      parse_prefaces_err_le (byteLen input) _
        (fun p hp => by
          have hq := charIndicesFrom_byte_le input 0 p
            ((parse_header_suffix _).subset hp)
          simpa using hq)
        ps errs lrest hpp
    cases errs with
    | nil =>
      simp only [List.isEmpty_nil, if_pos, Except.ok.injEq] at h
      subst h
      intro e he
      simp at he
    | cons e0 es0 =>
      simp at h
      subst h
      exact hb

/-- Witness for C4 at the input "x". -/
theorem C4_witness :
    parse ("x".toList)
      = Except.ok ⟨none, ⟨[], [], []⟩, [⟨unexpectedMsg 'x', 0⟩]⟩ ∧
    ∀ e ∈ (⟨none, ⟨[], [], []⟩, [⟨unexpectedMsg 'x', 0⟩]⟩ : ParseOutcome).errors,
      e.byte ≤ byteLen ("x".toList) :=
  ⟨by rfl, C4_offsets_le ("x".toList) _ (by rfl)⟩

/-- Claim C5: the pass terminates on every input: with fuel exceeding the
cursor length the prefaces loop never exhausts its fuel (each iteration
consumes at least one character), the delimiter-scanning loops and the
prefaces loop only ever move the cursor forward (the remaining cursor is a
suffix of the starting one), and a link attempt at a `[` strictly consumes
at least one character. -/
theorem C5_terminates (L fuel : Nat) (l : List (Nat × Char)) (hf : l.length < fuel) :
    parse_prefacesF fuel L l ≠ none ∧
    (∀ op cl acc bal r l', scanText op cl l acc bal = Except.ok (r, l') → l' <:+ l) ∧
    (∀ ps es l', parse_prefacesF fuel L l = some (Except.ok (ps, es, l')) → l' <:+ l) ∧
    (∀ i rest r oe l', l = (i, '[') :: rest →
      parse_link L l = Except.ok (r, oe, l') → l'.length < l.length) :=
  ⟨parse_prefacesF_ne_none fuel L l hf,
   fun op cl acc bal r l' h => scanText_suffix op cl l acc bal r l' h,
   fun ps es l' h => parse_prefacesF_suffix fuel L l ps es l' h,
   fun i rest r oe l' hl h => by
     subst hl
     exact parse_link_cons_length L i rest r oe l' h⟩

/-- Witness for C5 at a one-character cursor with fuel 2. -/
theorem C5_witness :
    ([(0, 'x')] : List (Nat × Char)).length < 2 ∧
    parse_prefacesF 2 1 [(0, 'x')] ≠ none :=
  ⟨by decide, (C5_terminates 1 2 [(0, 'x')] (by decide)).1⟩

/-- Claim C6: parsing "[A]b" yields zero preface entries and exactly one
diagnostic reporting that `(` was expected and `b` was found, at the byte
offset of `b`; when the input ends right after the closing `]` the message
reports eof instead. -/
theorem C6_missing_paren :
    parse ("[A]b".toList)
      = Except.ok ⟨none, ⟨[], [], []⟩, [⟨expectedMsgFound '(' 'b', 3⟩]⟩ ∧
    parse ("[A]".toList)
      = Except.ok ⟨none, ⟨[], [], []⟩, [⟨expectedMsgEof '(', 3⟩]⟩ :=
  ⟨by rfl, by rfl⟩

/-- Claim C7: `to_linecol` (a pure function of input and offset) returns
(0, 0) at offset 0; at the boundary after the first `k` lines it returns
(k, 0); and past the end of all lines it returns (total line count, 0). -/
theorem C7_to_linecol_boundaries (input : List Char) (offset k : Nat)
    (hk : k ≤ (linesList input).length)
    (hpast : lineBoundary input (linesList input).length ≤ offset) :
    to_linecol input 0 = (0, 0) ∧
    to_linecol input (lineBoundary input k) = (k, 0) ∧
    to_linecol input offset = ((linesList input).length, 0) := by
  refine ⟨?_, ?_, ?_⟩
  · rw [to_linecol]
    cases hls : linesList input with
    | nil => simp [linecolGo]
    | cons line rest =>
      simp only [linecolGo]
      rw [if_pos (by omega)]
  · rcases Nat.lt_or_ge k (linesList input).length with hlt | hge
    · have hb := linecolGo_boundary_lt k (linesList input)
        (linesList input).length 0 0 hlt
      rw [to_linecol, lineBoundary]
      simpa using hb
    · have hkeq : k = (linesList input).length := Nat.le_antisymm hk hge
      subst hkeq
      rw [to_linecol, lineBoundary, List.take_length]
      exact linecolGo_past (linesList input) _ _ 0 0 (by omega)
  · rw [to_linecol]
    rw [lineBoundary, List.take_length] at hpast
    exact linecolGo_past (linesList input) _ _ 0 0 (by omega)

/-- Witness for C7 at the input "ab\ncd" with k = 1 and offset 7. -/
theorem C7_witness :
    to_linecol ("ab\ncd".toList) 0 = (0, 0) ∧
    to_linecol ("ab\ncd".toList) (lineBoundary ("ab\ncd".toList) 1) = (1, 0) ∧
    to_linecol ("ab\ncd".toList) 7 = ((linesList ("ab\ncd".toList)).length, 0) :=
  C7_to_linecol_boundaries ("ab\ncd".toList) 7 1 (by decide) (by decide)

/-- Claim C8: parsing "[Pre \[3](d)" yields one entry whose title literally
contains the backslash followed by `[3` (the backslash is preserved, not
stripped) and zero diagnostics; the escaped `[` does not touch the balance
counter, as the scanning step for backslash shows. -/
theorem C8_escape_preserved :
    parse ("[Pre \\[3](d)".toList)
      = Except.ok ⟨some ⟨[Link.mk "Pre \\[3" "d" none], [], []⟩,
          ⟨[Link.mk "Pre \\[3" "d" none], [], []⟩, []⟩ ∧
    ∀ (acc : List Char) (bal : Nat) (i j : Nat) (rest : List (Nat × Char)),
      scanText '[' ']' ((i, '\\') :: (j, '[') :: rest) acc bal
        = scanText '[' ']' rest (acc ++ ['\\', '[']) bal :=
  ⟨by rfl, fun acc bal i j rest => by rfl⟩

/-- Claim C9: inside a title or destination, a backslash followed by a
newline appends both characters and scanning continues (bypassing the
newline-abort rule), so "[a\<newline>](b)" parses to one entry whose title
is `a`, backslash, newline. -/
theorem C9_backslash_newline :
    (∀ (acc : List Char) (bal : Nat) (i j : Nat) (rest : List (Nat × Char)),
      scanText '[' ']' ((i, '\\') :: (j, '\n') :: rest) acc bal
        = scanText '[' ']' rest (acc ++ ['\\', '\n']) bal) ∧
    (∀ (acc : List Char) (bal : Nat) (i j : Nat) (rest : List (Nat × Char)),
      scanText '(' ')' ((i, '\\') :: (j, '\n') :: rest) acc bal
        = scanText '(' ')' rest (acc ++ ['\\', '\n']) bal) ∧
    parse ("[a\\\n](b)".toList)
      = Except.ok ⟨some ⟨[Link.mk "a\\\n" "b" none], [], []⟩,
          ⟨[Link.mk "a\\\n" "b" none], [], []⟩, []⟩ :=
  ⟨fun acc bal i j rest => by rfl, fun acc bal i j rest => by rfl, by rfl⟩

/-- Claim C10: "\r\n" counts as a single newline wherever newlines are
recognized — the scanning loops abort on it exactly as on "\n", the
top-level loop consumes it silently — while a lone "\r" is not a newline
and hits the unexpected-character branch at top level. -/
theorem C10_crlf_newline :
    (∀ (op cl : Char) (acc : List Char) (bal : Nat) (i j : Nat)
        (rest : List (Nat × Char)),
      scanText op cl ((i, '\r') :: (j, '\n') :: rest) acc bal
        = Except.ok (none, rest)) ∧
    (∀ (op cl : Char) (acc : List Char) (bal : Nat) (i : Nat)
        (rest : List (Nat × Char)),
      scanText op cl ((i, '\n') :: rest) acc bal = Except.ok (none, rest)) ∧
    (∀ (fuel L i j : Nat) (rest : List (Nat × Char)),
      parse_prefacesF (fuel + 1) L ((i, '\r') :: (j, '\n') :: rest)
        = parse_prefacesF fuel L rest) ∧
    parse ("\r\n[A](d)".toList)
      = Except.ok ⟨some ⟨[Link.mk "A" "d" none], [], []⟩,
          ⟨[Link.mk "A" "d" none], [], []⟩, []⟩ ∧
    parse ("\r".toList)
      = Except.ok ⟨none, ⟨[], [], []⟩, [⟨unexpectedMsg '\r', 0⟩]⟩ :=
  ⟨fun op cl acc bal i j rest => by rfl,
   fun op cl acc bal i rest => by cases rest with
     | nil => rfl
     | cons p rest2 => rfl,
   fun fuel L i j rest => by rfl,
   by rfl, by rfl⟩

end Summary
